import Mathlib

/-!
Verification development for the data-ingestion RAG pipeline
(cleaner → chunker → embedding writer → similarity retriever, driven by an
orchestrator).  The TypeScript sources are shallowly embedded: text is
`List Char`, JavaScript regular-expression operations are modelled by
explicit, fuel-bounded scanners with the same matching semantics on the
character classes actually used, database tables are lists of rows, and the
external embedding / generation providers are opaque function parameters.
-/

namespace Ingest

/-- Text is modelled as a list of characters (JS strings, one element per
UTF-16 unit; all inputs of interest are ASCII-clean). -/
abbrev Str := List Char

/-- Convert a Lean string literal to the model representation. -/
def str (s : String) : Str := s.data

/-- A single-quote character, used inside context-metadata templates. -/
def sq : Str := [Char.ofNat 39]

/-- JS `\s` on the ASCII range (space, tab, newline, carriage return,
vertical tab, form feed). -/
def isWs (c : Char) : Bool :=
  c = ' ' || c = '\t' || c = '\n' || c = '\r' || c = '\x0b' || c = '\x0c'

/-- JS `\w`: ASCII letters, digits and underscore. -/
def isWordChar (c : Char) : Bool :=
  c.isAlphanum || c = '_'

/-- Index of the first occurrence of the literal pattern `pat` in `s`
(JS `String.indexOf`). -/
def idxOfSub (pat : Str) : Str → Option Nat
  | [] => if pat.isEmpty then some 0 else none
  | c :: rest =>
      if pat.isPrefixOf (c :: rest) then some 0
      else (idxOfSub pat rest).map (· + 1)

/-- JS `String.replace(pat, repl)` with a *string* pattern: replace only the
first occurrence, or return the string unchanged when absent. -/
def replaceFirstL (s pat repl : Str) : Str :=
  match idxOfSub pat s with
  | none => s
  | some i => s.take i ++ repl ++ s.drop (i + pat.length)

/-- Replace every (leftmost, non-overlapping) match of the position matcher
`m` by `repl`; `m l` returns the length of the match starting at the head of
`l`, if any.  Fuel-bounded so the definition is structural (one unit of fuel
per consumed character suffices). -/
def replAllM (m : Str → Option Nat) (repl : Str) : Nat → Str → Str
  | 0, s => s
  | _ + 1, [] => []
  | fuel + 1, c :: rest =>
      match m (c :: rest) with
      | some (n + 1) => repl ++ replAllM m repl fuel (rest.drop n)
      | _ => c :: replAllM m repl fuel rest

/-- `String.replace(regex-with-g, repl)`: scan with fuel `s.length`. -/
def replAll (m : Str → Option Nat) (repl : Str) (s : Str) : Str :=
  replAllM m repl s.length s

/-- Collect every (leftmost, non-overlapping) match of `m`
(JS `String.match(regex-with-g)`, which yields `null ≡ []` when empty). -/
def findAllM (m : Str → Option Nat) : Nat → Str → List Str
  | 0, _ => []
  | _ + 1, [] => []
  | fuel + 1, c :: rest =>
      match m (c :: rest) with
      | some (n + 1) => (c :: rest).take (n + 1) :: findAllM m fuel (rest.drop n)
      | _ => findAllM m fuel rest

/-- Wrapper fixing the fuel. -/
def findAll (m : Str → Option Nat) (s : Str) : List Str :=
  findAllM m s.length s

/-- First match of `m` anywhere in `s`: `(index, length)`. -/
def findM (m : Str → Option Nat) : Nat → Str → Option (Nat × Nat)
  | 0, _ => none
  | _ + 1, [] => none
  | fuel + 1, c :: rest =>
      match m (c :: rest) with
      | some n => some (0, n)
      | none => (findM m fuel rest).map (fun p => (p.1 + 1, p.2))

/-- JS `String.split(regex)`: pieces between consecutive matches of `m`
(matches have positive length here, so no zero-length-match corner case). -/
def splitM (m : Str → Option Nat) : Nat → Str → List Str
  | 0, s => [s]
  | fuel + 1, s =>
      match findM m s.length s with
      | none => [s]
      | some (i, n) => s.take i :: splitM m fuel (s.drop (i + n))

/-- JS `String.split(c)` with a single-character string separator. -/
def splitOnC (sep : Char) : Str → List Str
  | [] => [[]]
  | c :: rest =>
      if c = sep then [] :: splitOnC sep rest
      else
        match splitOnC sep rest with
        | h :: t => (c :: h) :: t
        | [] => [[c]]

/-- JS `String.trim()` (whitespace from both ends). -/
def trimL (s : Str) : Str :=
  ((s.dropWhile isWs).reverse.dropWhile isWs).reverse

/-- JS `||` on an optional string: `undefined` and `""` are falsy. -/
def jsOr (x : Option Str) (dflt : Str) : Str :=
  match x with
  | none => dflt
  | some s => if s.isEmpty then dflt else s

/-- ASCII lower-casing (JS `toLowerCase` on the inputs of interest). -/
def toLowerL (s : Str) : Str := s.map Char.toLower

/-- Does `s` contain the literal pattern `pat`? -/
def containsSub (pat s : Str) : Bool := (idxOfSub pat s).isSome

/-! ### Matchers for the individual regular expressions of the cleaner -/

/-- `/(https?:\/\/[^\s]+)/` at the current position: scheme prefix followed
by at least one non-whitespace character. -/
def urlMatchAt (s : Str) : Option Nat :=
  let tail (k : Nat) : Option Nat :=
    let run := (s.drop k).takeWhile (fun c => !isWs c)
    if run.isEmpty then none else some (k + run.length)
  if (str "https://").isPrefixOf s then tail 8
  else if (str "http://").isPrefixOf s then tail 7
  else none

/-- ```/```[\s\S]*?```/``` at the current position: an opening fence and the
*nearest* closing fence (lazy repetition). -/
def codeBlockMatchAt (s : Str) : Option Nat :=
  if (str "```").isPrefixOf s then
    match idxOfSub (str "```") (s.drop 3) with
    | some j => some (3 + j + 3)
    | none => none
  else none

/-- One-or-more digits immediately followed by `>`; returns the consumed
length including the `>`. -/
def digitsGt (l : Str) : Option Nat :=
  let ds := l.takeWhile Char.isDigit
  if ds.isEmpty then none
  else
    match l.drop ds.length with
    | '>' :: _ => some (ds.length + 1)
    | _ => none

/-- `/<@!?\d+>/` (user mention) at the current position. -/
def mentionMatchAt : Str → Option Nat
  | '<' :: '@' :: '!' :: rest => (digitsGt rest).map (· + 3)
  | '<' :: '@' :: rest => (digitsGt rest).map (· + 2)
  | _ => none

/-- `/<#\d+>/` (channel mention) at the current position. -/
def channelMatchAt : Str → Option Nat
  | '<' :: '#' :: rest => (digitsGt rest).map (· + 2)
  | _ => none

/-- `/<@&\d+>/` (role mention) at the current position. -/
def roleMatchAt : Str → Option Nat
  | '<' :: '@' :: '&' :: rest => (digitsGt rest).map (· + 3)
  | _ => none

/-- The `:\w+:\d+>` tail of the custom-emoji pattern. -/
def emojiTail (l : Str) : Option Nat :=
  match l with
  | ':' :: rest =>
      let w := rest.takeWhile isWordChar
      if w.isEmpty then none
      else
        match rest.drop w.length with
        | ':' :: rest2 => (digitsGt rest2).map (fun n => 1 + w.length + 1 + n)
        | _ => none
  | _ => none

/-- `/<a?:[\w]+:\d+>/` (custom emoji) at the current position. -/
def emojiMatchAt : Str → Option Nat
  | '<' :: rest =>
      match rest with
      | 'a' :: rest2 =>
          match emojiTail rest2 with
          | some n => some (2 + n)
          | none => (emojiTail rest).map (· + 1)
      | _ => (emojiTail rest).map (· + 1)
  | _ => none

/-- `/\s+/` at the current position (maximal whitespace run). -/
def wsMatchAt (s : Str) : Option Nat :=
  let r := s.takeWhile isWs
  if r.isEmpty then none else some r.length

/-- ```/```\w*\n?/``` at the current position (opening fence with an
optional language tag), used when storing extracted code fragments. -/
def fenceMatchAt (s : Str) : Option Nat :=
  if (str "```").isPrefixOf s then
    let w := (s.drop 3).takeWhile isWordChar
    let n := 3 + w.length
    match s.drop n with
    | '\n' :: _ => some (n + 1)
    | _ => some n
  else none

/-- `/\.(jpg|jpeg|png|gif|mp4|webm)/i.test(url)` from `hasMedia`. -/
def hasMediaExt (u : Str) : Bool :=
  let l := toLowerL u
  containsSub (str ".jpg") l || containsSub (str ".jpeg") l ||
  containsSub (str ".png") l || containsSub (str ".gif") l ||
  containsSub (str ".mp4") l || containsSub (str ".webm") l

/-! ### The Discord cleaner (`cleanDiscordData` in `1.cleaning`) -/

/-- A raw-record payload: a JS object with possibly-missing properties.
Discord producers set the first five, the GitHub producer sets the
upper-case pair. -/
structure Payload where
  content : Option Str
  username : Option Str
  userId : Option Str
  channelId : Option Str
  timestamp : Option Str
  FILENAME : Option Str
  CONTENT : Option Str
deriving DecidableEq

/-- The payload with every property missing. -/
def Payload.empty : Payload := ⟨none, none, none, none, none, none, none⟩

structure CleanedDiscordData where
  content : Str
  username : Str
  userId : Str
  channelId : Str
  timestamp : Str
  urls : List Str
  codeBlocks : List Str
  hasMedia : Bool
deriving DecidableEq

/-- URLs extracted from the raw body (`content?.match(urlRegex) || []`). -/
def discordUrls (content : Option Str) : List Str :=
  match content with
  | none => []
  | some c => findAll urlMatchAt c

/-- Fenced code blocks extracted from the raw body. -/
def discordCodeBlocks (content : Option Str) : List Str :=
  match content with
  | none => []
  | some c => findAll codeBlockMatchAt c

/-- The residual body after every replacement step of the Discord cleaner:
code blocks, then URLs, then user/channel/role mentions, then custom emoji,
then whitespace collapsing and trimming. -/
def discordResidual (content : Option Str) : Str :=
  let urls := discordUrls content
  let blocks := discordCodeBlocks content
  let c0 := jsOr content []
  let c1 := blocks.foldl (fun acc b => replaceFirstL acc b (str "[CODE_BLOCK]")) c0
  let c2 := urls.foldl (fun acc u => replaceFirstL acc u (str "[URL]")) c1
  let c3 := replAll mentionMatchAt (str "@user") c2
  let c4 := replAll channelMatchAt (str "#channel") c3
  let c5 := replAll roleMatchAt (str "@role") c4
  let c6 := replAll emojiMatchAt [] c5
  trimL (replAll wsMatchAt (str " ") c6)

/-- `cleanDiscordData`: returns `none` exactly when the residual text is
shorter than 3 characters or equals a bare placeholder.  `now` stands for
`new Date().toISOString()` (the timestamp default). -/
def cleanDiscordData (p : Payload) (now : Str) : Option CleanedDiscordData :=
  let urls := discordUrls p.content
  let blocks := discordCodeBlocks p.content
  let residual := discordResidual p.content
  if residual.length < 3 ∨ residual = str "[CODE_BLOCK]" ∨ residual = str "[URL]" then
    none
  else
    some
      { content := residual
        username := jsOr p.username (str "unknown")
        userId := jsOr p.userId (str "unknown")
        channelId := jsOr p.channelId (str "unknown")
        timestamp := jsOr p.timestamp now
        urls := urls
        codeBlocks := blocks.map (fun b => trimL (replAll fenceMatchAt [] b))
        hasMedia := urls.any hasMediaExt }

/-! ### The GitHub cleaner (`cleanGithubData` in `1.cleaning`) -/

/-- One parsed markdown section: heading text and the content up to the
next heading (or end of file). -/
structure MdSection where
  header : Str
  content : Str
deriving DecidableEq

/-- Backtracking step of `/^(#{1,6})\s+(.+)$/m` when the whole remainder of
the input after the hashes is whitespace: `\s+` gives characters back one at
a time until `(.+)` can start on a non-newline character.  `r` is the hash
count; the argument counts how many characters `\s+` keeps. -/
def headingBT (rest : Str) (r : Nat) : Nat → Option (Nat × Str)
  | 0 => none
  | j + 1 =>
      match (rest.drop (j + 1)).head? with
      | some c =>
          if c ≠ '\n' then
            let text := (rest.drop (j + 1)).takeWhile (· ≠ '\n')
            some (r + (j + 1) + text.length, text)
          else headingBT rest r j
      | none => headingBT rest r j

/-- `/^(#{1,6})\s+(.+)$/` tried at a line-start position: returns the total
match length and the captured heading text.  `\s+` is greedy over all
whitespace (newlines included, as in JS), and `(.+)$` then takes the maximal
run of non-newline characters. -/
def headingAt (s : Str) : Option (Nat × Str) :=
  let r := (s.takeWhile (· = '#')).length
  if 1 ≤ r ∧ r ≤ 6 then
    let rest := s.drop r
    let w := (rest.takeWhile isWs).length
    if w = 0 then none
    else
      let afterWs := rest.drop w
      match afterWs with
      | [] => headingBT rest r (w - 1)
      | _ :: _ =>
          let text := afterWs.takeWhile (· ≠ '\n')
          some (r + w + text.length, text)
  else none

/-- `content.matchAll(headerRegex)` with the `gm` flags: scan every
position, only attempt the pattern at line starts, and resume after the end
of each match.  Produces `(index, length, heading text)` triples. -/
def scanHeadingsAux : Nat → Str → Nat → Bool → List (Nat × Nat × Str)
  | 0, _, _, _ => []
  | _ + 1, [], _, _ => []
  | fuel + 1, c :: rest, pos, atLS =>
      if atLS then
        match headingAt (c :: rest) with
        | some (len, text) =>
            (pos, len, text) :: scanHeadingsAux fuel ((c :: rest).drop len) (pos + len) false
        | none => scanHeadingsAux fuel rest (pos + 1) (c = '\n')
      else scanHeadingsAux fuel rest (pos + 1) (c = '\n')

/-- All heading matches of a markdown body. -/
def scanHeadings (content : Str) : List (Nat × Nat × Str) :=
  scanHeadingsAux content.length content 0 true

/-- Build the section list from the match list: each section runs from the
end of its heading match to the start of the next match (or end of file) and
is trimmed.  The stored header is the captured heading text
(`"".repeat(level-1)` prepends nothing). -/
def sectionsFrom (content : Str) : List (Nat × Nat × Str) → List MdSection
  | [] => []
  | (s, l, text) :: rest =>
      let stop :=
        match rest with
        | (s2, _, _) :: _ => s2
        | [] => content.length
      ⟨text, trimL ((content.drop (s + l)).take (stop - (s + l)))⟩ :: sectionsFrom content rest

/-- The ordered markdown sections of a body (`extension === "md"` branch). -/
def parseMarkdownSections (content : Str) : List MdSection :=
  sectionsFrom content (scanHeadings content)

/-- `filename.split(".").pop()?.toLowerCase() || ""`. -/
def extensionOfL (filename : Str) : Str :=
  jsOr (some (toLowerL ((splitOnC '.' filename).getLastD []))) []

/-- The fixed allow-list of code extensions. -/
def codeExtensions : List Str :=
  [str "ts", str "js", str "py", str "java", str "cpp", str "c",
   str "go", str "rs", str "rb", str "php"]

/-- `/\/\/.*$/m` at the current position: a `//` and the rest of the line. -/
def lineCommentAt (s : Str) : Option Nat :=
  if (str "//").isPrefixOf s then
    some (2 + ((s.drop 2).takeWhile (· ≠ '\n')).length)
  else none

/-- `/\/\*[\s\S]*?\*\//` at the current position: a block comment up to the
nearest closing delimiter. -/
def blockCommentAt (s : Str) : Option Nat :=
  if (str "/*").isPrefixOf s then
    match idxOfSub (str "*/") (s.drop 2) with
    | some j => some (2 + j + 2)
    | none => none
  else none

/-- `/\n{3,}/` at the current position (maximal run of ≥ 3 newlines). -/
def blankRunAt (s : Str) : Option Nat :=
  let r := (s.takeWhile (· = '\n')).length
  if 3 ≤ r then some r else none

/-- `/[ \t]+$/m` at the current position: a run of spaces/tabs lying
directly before a newline or the end of the input. -/
def trailingWsAt (s : Str) : Option Nat :=
  let r := (s.takeWhile (fun c => c = ' ' || c = '\t')).length
  if r = 0 then none
  else
    match s.drop r with
    | [] => some r
    | '\n' :: _ => some r
    | _ => none

structure CleanedGithubData where
  content : Str
  filename : Str
  fileType : Str
  extension : Str
  isCode : Bool
  language : Option Str
  sections : Option (List MdSection)
deriving DecidableEq

/-- `cleanGithubData`: detect the file kind from the extension, parse
markdown sections, strip comments from code files, trim trailing
whitespace, and reject bodies shorter than 10 characters. -/
def cleanGithubData (p : Payload) : Option CleanedGithubData :=
  let filename := jsOr p.FILENAME (str "unknown")
  let extension := extensionOfL filename
  let isCode := codeExtensions.contains extension
  let c0 := jsOr p.CONTENT []
  let sections : Option (List MdSection) :=
    if extension = str "md" then some (parseMarkdownSections c0) else none
  let c1 :=
    if isCode then
      replAll blankRunAt (str "\n\n")
        (replAll blockCommentAt [] (replAll lineCommentAt [] c0))
    else c0
  let c2 := trimL (replAll trailingWsAt [] c1)
  if c2.length < 10 then none
  else
    some
      { content := c2
        filename := filename
        fileType :=
          if extension = str "md" then str "markdown"
          else if isCode then str "code" else str "text"
        extension := extension
        isCode := isCode
        language := if isCode then some extension else none
        sections := sections }

/-! ### The chunker (`2.chunking`) -/

/-- `Math.ceil(text.length / 4)`. -/
def estimateTokens (t : Str) : Nat := (t.length + 3) / 4

/-- One chunk as assembled by the chunker before persistence. -/
structure ChunkData where
  content : Str
  chunkIndex : Nat
  tokenCount : Nat
  chunkType : Str
  contextMetadata : Str
  messageCount : Option Nat
  participants : List Str
  functionName : Option Str
  headerPath : Option Str
deriving DecidableEq

/-- The fields of a cleaned Discord row read by the Discord chunker.
`timestampISO` models the stored timestamp rendered by `toISOString()`. -/
structure DiscordRec where
  id : Nat
  cleanedContent : Str
  username : Str
  channelId : Str
  timestampISO : Str
  codeBlocks : List Str
deriving DecidableEq

/-- `timestamp.toISOString().split("T")[0]`. -/
def isoDate (iso : Str) : Str := iso.takeWhile (· ≠ 'T')

/-- The main message chunk of a Discord record (index 0). -/
def discordMainChunk (rec : DiscordRec) : ChunkData :=
  let mainContent := rec.cleanedContent
  { content := mainContent
    chunkIndex := 0
    tokenCount := estimateTokens mainContent
    chunkType := str "discord_message"
    contextMetadata :=
      str "Discord message from @" ++ rec.username ++ str " on " ++
        isoDate rec.timestampISO ++ str " in channel " ++ rec.channelId ++
        str ": " ++ mainContent
    messageCount := some 1
    participants := [rec.username]
    functionName := none
    headerPath := none }

/-- The extra chunk for the `idx`-th extracted code fragment (index idx+1). -/
def discordCodeChunk (rec : DiscordRec) (idx : Nat) (codeBlock : Str) : ChunkData :=
  { content := codeBlock
    chunkIndex := idx + 1
    tokenCount := estimateTokens codeBlock
    chunkType := str "discord_code_block"
    contextMetadata :=
      str "Code block from @" ++ rec.username ++ sq ++ str "s message on " ++
        isoDate rec.timestampISO ++ str ": " ++ codeBlock
    messageCount := some 1
    participants := [rec.username]
    functionName := none
    headerPath := none }

/-- The chunks of one Discord record: the whole message, then one chunk per
extracted code fragment. -/
def discordChunksFor (rec : DiscordRec) : List ChunkData :=
  discordMainChunk rec :: rec.codeBlocks.mapIdx (discordCodeChunk rec)

/-- `chunkDiscordMessages`: per input record, its id with its chunks. -/
def chunkDiscordMessages (records : List DiscordRec) : List (Nat × List ChunkData) :=
  records.map (fun rec => (rec.id, discordChunksFor rec))

/-- The declaration keywords of the boundary-detection pattern
`/(?:function|def|const|let|var|class|interface|type)\s+(\w+)/`. -/
def declKeywords : List Str :=
  [str "function", str "def", str "const", str "let", str "var",
   str "class", str "interface", str "type"]

/-- Try one alternation branch at the current position: the keyword, then
`\s+`, then `(\w+)`; the full match text is returned.  (No two keywords can
match at the same position, so alternation order is immaterial.) -/
def declTryKw (s kw : Str) : Option Str :=
  if kw.isPrefixOf s then
    let rest := s.drop kw.length
    let w := rest.takeWhile isWs
    if w.isEmpty then none
    else
      let word := (rest.drop w.length).takeWhile isWordChar
      if word.isEmpty then none else some (kw ++ w ++ word)
  else none

/-- The declaration pattern tried at the current position. -/
def declMatchHere (s : Str) : Option Str :=
  declKeywords.foldl (fun acc kw => acc <|> declTryKw s kw) none

/-- `line.match(functionRegex)` reduced to its first (leftmost) match. -/
def findDeclAux : Nat → Str → Option Str
  | 0, _ => none
  | _ + 1, [] => none
  | fuel + 1, c :: rest =>
      match declMatchHere (c :: rest) with
      | some m => some m
      | none => findDeclAux fuel rest

/-- First declaration match on a line, if any. -/
def findDecl (line : Str) : Option Str := findDeclAux line.length line

/-- `lines.join("\n")`. -/
def joinNL (lines : List Str) : Str := List.intercalate (str "\n") lines

/-- The chunk closed when a declaration boundary is hit: always tagged
`code_function`, with the (possibly empty) accumulated name stored. -/
def codeBoundaryChunk (filename language cc name : Str) (k : Nat) : ChunkData :=
  { content := cc
    chunkIndex := k
    tokenCount := estimateTokens cc
    chunkType := str "code_function"
    contextMetadata :=
      str "Function " ++ sq ++ name ++ sq ++ str " from " ++ filename ++
        str " (" ++ language ++ str "): " ++ cc.take 200 ++ str "..."
    messageCount := none
    participants := []
    functionName := some name
    headerPath := none }

/-- The chunk emitted by the size-overflow split (> 800 estimated tokens and
more than 10 lines): always tagged `code_block`, no function name. -/
def codeSizeChunk (filename language cc : Str) (k : Nat) : ChunkData :=
  { content := cc
    chunkIndex := k
    tokenCount := estimateTokens cc
    chunkType := str "code_block"
    contextMetadata :=
      str "Code section from " ++ filename ++ str " (" ++ language ++
        str "): " ++ cc.take 200 ++ str "..."
    messageCount := none
    participants := []
    functionName := none
    headerPath := none }

/-- The final trailing chunk: `code_function` with the name exactly when a
non-empty name was captured, else `code_block` with no name. -/
def codeFinalChunk (filename language cc name : Str) (k : Nat) : ChunkData :=
  { content := cc
    chunkIndex := k
    tokenCount := estimateTokens cc
    chunkType := if name.isEmpty then str "code_block" else str "code_function"
    contextMetadata :=
      (if name.isEmpty then str "Code section"
       else str "Function " ++ sq ++ name ++ sq) ++
        str " from " ++ filename ++ str " (" ++ language ++ str "): " ++
        cc.take 200 ++ str "..."
    messageCount := none
    participants := []
    functionName := if name.isEmpty then none else some name
    headerPath := none }

/-- The line loop of `chunkCodeFile`: state is the accumulated lines, the
captured declaration name and the running chunk index. -/
def codeLoop (filename language : Str) :
    List Str → List Str → Str → Nat → List ChunkData
  | [], cur, name, k =>
      if cur.isEmpty then [] else [codeFinalChunk filename language (joinNL cur) name k]
  | line :: restLines, cur, name, k =>
      let step : List ChunkData × List Str × Str × Nat :=
        match findDecl line, cur with
        | some m, _ :: _ =>
            ([codeBoundaryChunk filename language (joinNL cur) name k], [line], m, k + 1)
        | some m, [] =>
            ([], [line], if name.isEmpty then m else name, k)
        | none, _ =>
            ([], cur ++ [line], name, k)
      let emitted := step.1
      let cur1 := step.2.1
      let name1 := step.2.2.1
      let k1 := step.2.2.2
      if 800 < estimateTokens (joinNL cur1) ∧ 10 < cur1.length then
        emitted ++ codeSizeChunk filename language (joinNL cur1) k1 ::
          codeLoop filename language restLines [] [] (k1 + 1)
      else
        emitted ++ codeLoop filename language restLines cur1 name1 k1

/-- `chunkCodeFile`: split the body into lines and run the boundary loop. -/
def chunkCodeFile (content filename language : Str) : List ChunkData :=
  codeLoop filename language (splitOnC '\n' content) [] [] 0

/-- `/\n\n+/` at the current position (maximal run of ≥ 2 newlines). -/
def paraSepAt (s : Str) : Option Nat :=
  let r := (s.takeWhile (· = '\n')).length
  if 2 ≤ r then some r else none

/-- `content.split(/\n\n+/).filter(p => p.trim().length > 0)`. -/
def paragraphsOf (content : Str) : List Str :=
  (splitM paraSepAt (content.length + 1) content).filter
    (fun p => !(trimL p).isEmpty)

/-- One markdown-section chunk. -/
def mdSectionChunk (filename : Str) (idx : Nat) (sec : MdSection) : ChunkData :=
  let fullContent := str "# " ++ sec.header ++ str "\n\n" ++ sec.content
  { content := fullContent
    chunkIndex := idx
    tokenCount := estimateTokens fullContent
    chunkType := str "markdown_section"
    contextMetadata :=
      str "Markdown section \"" ++ sec.header ++ str "\" from " ++ filename ++
        str ": " ++ fullContent.take 200 ++ str "..."
    messageCount := none
    participants := []
    functionName := none
    headerPath := some sec.header }

/-- One paragraph-accumulation chunk of the markdown fallback path. -/
def mdParaChunk (filename cc : Str) (k : Nat) : ChunkData :=
  { content := cc
    chunkIndex := k
    tokenCount := estimateTokens cc
    chunkType := str "markdown_paragraph"
    contextMetadata := str "Text from " ++ filename ++ str ": " ++ cc.take 200 ++ str "..."
    messageCount := none
    participants := []
    functionName := none
    headerPath := none }

/-- `paragraphs.join("\n\n")`. -/
def joinPara (ps : List Str) : Str := List.intercalate (str "\n\n") ps

/-- The paragraph-accumulation loop of the markdown fallback path. -/
def mdParaLoop (filename : Str) : List Str → List Str → Nat → List ChunkData
  | [], cur, k =>
      if cur.isEmpty then [] else [mdParaChunk filename (joinPara cur) k]
  | p :: rest, cur, k =>
      let cur1 := cur ++ [p]
      if 800 < estimateTokens (joinPara cur1) then
        mdParaChunk filename (joinPara cur1) k :: mdParaLoop filename rest [] (k + 1)
      else
        mdParaLoop filename rest cur1 k

/-- `chunkMarkdownFile`: one chunk per parsed section when sections exist,
else the paragraph-accumulation fallback. -/
def chunkMarkdownFile (content : Str) (sections : List MdSection) (filename : Str) :
    List ChunkData :=
  match sections with
  | _ :: _ => sections.mapIdx (mdSectionChunk filename)
  | [] => mdParaLoop filename (paragraphsOf content) [] 0

/-- The generic-text path of `processUnchunkedData`: one `text_block` chunk
per non-blank paragraph. -/
def chunkTextRecord (filename content : Str) : List ChunkData :=
  (paragraphsOf content).mapIdx (fun idx para =>
    { content := para
      chunkIndex := idx
      tokenCount := estimateTokens para
      chunkType := str "text_block"
      contextMetadata := str "Text from " ++ filename ++ str ": " ++ para.take 200 ++ str "..."
      messageCount := none
      participants := []
      functionName := none
      headerPath := none })

/-! ### Persisted store and the cleaning pass (`processUncleanedData`) -/

inductive Source
  | Discord
  | Github
deriving DecidableEq

/-- A row of the `Data` table (one raw record). -/
structure RawRecord where
  id : Nat
  source : Source
  data : Payload
  processed : Bool
  lastProcessedAt : Option Nat
  deletedAt : Option Nat
  createdAt : Nat
deriving DecidableEq

/-- A row of the `CleanedData` table; the source-kind-specific columns are
nullable. -/
structure CleanedRow where
  id : Nat
  dataId : Nat
  source : Source
  cleanedContent : Str
  timestampISO : Str
  username : Option Str
  userId : Option Str
  channelId : Option Str
  urls : List Str
  codeBlocks : List Str
  hasMedia : Option Bool
  filename : Option Str
  fileType : Option Str
  extension : Option Str
  isCode : Option Bool
  language : Option Str
  sections : Option (List MdSection)
  createdAt : Nat
deriving DecidableEq

/-- The slice of the store the cleaning pass touches. -/
structure DB where
  data : List RawRecord
  cleaned : List CleanedRow
deriving DecidableEq

/-- Selection predicate of the cleaner: `processed: false, deletedAt: null`. -/
def eligibleRaw (r : RawRecord) : Bool :=
  !r.processed && r.deletedAt.isNone

/-- `findMany({where, take: limit, orderBy: {createdAt: "asc"}})`. -/
def selectRaw (limit : Option Nat) (db : DB) : List RawRecord :=
  let sorted :=
    List.insertionSort (fun a b : RawRecord => a.createdAt ≤ b.createdAt)
      (db.data.filter eligibleRaw)
  match limit with
  | none => sorted
  | some n => sorted.take n

/-- Result of cleaning one raw record, by source kind. -/
inductive CleanResult
  | discord (d : CleanedDiscordData)
  | github (g : CleanedGithubData)
deriving DecidableEq

/-- `record.source === "Discord" ? cleanDiscordData(...) : cleanGithubData(...)`. -/
def cleanRaw (nowISO : Str) (r : RawRecord) : Option CleanResult :=
  match r.source with
  | .Discord => (cleanDiscordData r.data nowISO).map .discord
  | .Github => (cleanGithubData r.data).map .github

/-- Build the `CleanedData` row persisted for one accepted record.  The
generated row id is modelled as a fresh counter; `new Date(s).toISOString()`
round-tripping of a stored ISO string is modelled as the identity. -/
def mkCleanedRow (newId : Nat) (r : RawRecord) (res : CleanResult)
    (nowISO : Str) (nowT : Nat) : CleanedRow :=
  match res with
  | .discord d =>
      { id := newId, dataId := r.id, source := .Discord
        cleanedContent := d.content, timestampISO := d.timestamp
        username := some d.username, userId := some d.userId
        channelId := some d.channelId, urls := d.urls
        codeBlocks := d.codeBlocks, hasMedia := some d.hasMedia
        filename := none, fileType := none, extension := none
        isCode := none, language := none, sections := none
        createdAt := nowT }
  | .github g =>
      { id := newId, dataId := r.id, source := .Github
        cleanedContent := g.content, timestampISO := nowISO
        username := none, userId := none, channelId := none
        urls := [], codeBlocks := [], hasMedia := none
        filename := some g.filename, fileType := some g.fileType
        extension := some g.extension, isCode := some g.isCode
        language := g.language, sections := g.sections
        createdAt := nowT }

/-- The `data.update` marking a record processed. -/
def markProcessed (nowT : Nat) (x : RawRecord) : RawRecord :=
  { x with processed := true, lastProcessedAt := some nowT }

/-- One iteration of the cleaning loop over one selected record.  Only an
accepted record persists a cleaned row, flips `processed` and counts. -/
def cleanStep (nowT : Nat) (nowISO : Str) (acc : DB × Nat) (r : RawRecord) :
    DB × Nat :=
  match cleanRaw nowISO r with
  | some res =>
      let d := acc.1
      let row := mkCleanedRow d.cleaned.length r res nowISO nowT
      (⟨d.data.map (fun x => if x.id = r.id then markProcessed nowT x else x),
        d.cleaned ++ [row]⟩, acc.2 + 1)
  | none => acc

/-- `processUncleanedData(limit)`: select eligible raw records in creation
order (up to `limit` when given), clean each, and return the new store with
the count of records turned into cleaned rows. -/
def processUncleanedData (limit : Option Nat) (nowT : Nat) (nowISO : Str)
    (db : DB) : DB × Nat :=
  (selectRaw limit db).foldl (cleanStep nowT nowISO) (db, 0)

/-- `BATCH_SIZE` of the orchestrator. -/
def BATCH_SIZE : Nat := 50

/-- `AutoPipeline.autoClean`: probe for up to `BATCH_SIZE` eligible records,
but — when any exist — run `processUncleanedData()` with **no** limit. -/
def autoClean (nowT : Nat) (nowISO : Str) (db : DB) : DB × Nat :=
  let pre := selectRaw (some BATCH_SIZE) db
  if pre.isEmpty then (db, 0)
  else processUncleanedData none nowT nowISO db

/-! ### The embedding writer (`GeminiEmbedder.embedUnprocessedChunks`) -/

/-- A row of the `Chunk` table as read by the embedder and the retriever;
`username`/`filename`/`timestampISO` are the columns surfaced by the
retrieval join with `CleanedData`. -/
structure ChunkRow where
  id : Nat
  createdAt : Nat
  content : Str
  chunkType : Str
  contextMetadata : Str
  source : Source
  embedding : Option (List ℚ)
  embeddedAt : Option Nat
  username : Option Str
  filename : Option Str
  timestampISO : Option Str
deriving DecidableEq

/-- Selection of the embedder: `embeddedAt: null`, creation order, `take`. -/
def selectUnembedded (limit : Option Nat) (chunks : List ChunkRow) : List ChunkRow :=
  let sorted :=
    List.insertionSort (fun a b : ChunkRow => a.createdAt ≤ b.createdAt)
      (chunks.filter (fun c => c.embeddedAt.isNone))
  match limit with
  | none => sorted
  | some n => sorted.take n

/-- `embedUnprocessedChunks(limit)`: embed the context string of every
selected chunk (the provider is the opaque `embedFn`) and update each
selected row — setting `embedding` and `embeddedAt` together — keyed by id.
Rows that already have `embeddedAt` are never selected. -/
def embedUnprocessedChunks (embedFn : Str → List ℚ) (limit : Option Nat)
    (nowT : Nat) (chunks : List ChunkRow) : List ChunkRow :=
  let selected := selectUnembedded limit chunks
  chunks.map (fun c =>
    match selected.find? (fun s => s.id = c.id) with
    | some s => { c with embedding := some (embedFn s.contextMetadata), embeddedAt := some nowT }
    | none => c)

/-! ### The similarity retriever (`GeminiEmbedder.searchSimilar`) -/

/-- Eligibility of a chunk for retrieval: embedded, and matching the source
filter when one is supplied. -/
def eligibleChunks (src : Option Source) (chunks : List ChunkRow) : List ChunkRow :=
  chunks.filter (fun c =>
    c.embedding.isSome &&
      match src with
      | some s => decide (c.source = s)
      | none => true)

/-- `searchSimilar(query, topK, source?)`: rank eligible chunks by the
cosine distance of their stored vector to the query vector (`dist`, the
pgvector `<=>` operator applied to this query), take the first `topK`, and
convert each distance to the similarity `1 - d/2`. -/
def searchSimilar (dist : ChunkRow → ℚ) (topK : Nat) (src : Option Source)
    (chunks : List ChunkRow) : List (ChunkRow × ℚ) :=
  let sorted :=
    List.insertionSort (fun a b : ChunkRow => dist a ≤ dist b)
      (eligibleChunks src chunks)
  (sorted.take topK).map (fun c => (c, 1 - dist c / 2))

/-! ### The answer operation (`RAGQuery.query`) -/

/-- Decimal digits of a natural number. -/
def natStrAux : Nat → Nat → Str
  | 0, _ => []
  | fuel + 1, n =>
      if n = 0 then []
      else natStrAux fuel (n / 10) ++ [Char.ofNat (48 + n % 10)]

/-- Decimal rendering of a natural number. -/
def natStr (n : Nat) : Str :=
  if n = 0 then str "0" else natStrAux (n + 1) n

/-- `(q * 100).toFixed(1)`: percentage with one decimal, rounding to the
nearest tenth. -/
def pctFixed1 (q : ℚ) : Str :=
  let m : ℤ := round (q * 1000)
  (if m < 0 then str "-" else []) ++
    natStr (m.natAbs / 10) ++ str "." ++ natStr (m.natAbs % 10)

/-- A JS template interpolation of a possibly-null / possibly-undefined
value. -/
def jsStr (o : Option Str) (whenNone : Str) : Str :=
  match o with
  | some s => s
  | none => whenNone

/-- The provenance line of one context block. -/
def sourceMeta (c : ChunkRow) : Str :=
  match c.source with
  | .Discord =>
      str "From Discord (@" ++ jsStr c.username (str "null") ++ str " on " ++
        jsStr (c.timestampISO.map isoDate) (str "undefined") ++ str ")"
  | .Github => str "From GitHub (" ++ jsStr c.filename (str "null") ++ str ")"

/-- One formatted context block of the prompt. -/
def contextBlock (idx : Nat) (p : ChunkRow × ℚ) : Str :=
  str "[Source " ++ natStr (idx + 1) ++ str "] " ++ sourceMeta p.1 ++
    str "\nRelevance: " ++ pctFixed1 p.2 ++ str "%\nContent: " ++ p.1.content ++
    str "\n---"

/-- The full context handed to the generator. -/
def formatContext (results : List (ChunkRow × ℚ)) : Str :=
  List.intercalate (str "\n\n") (results.mapIdx contextBlock)

/-- The canned no-information answer. -/
def cannedAnswer : Str :=
  str "I don" ++ sq ++
    str "t have any relevant information in my knowledge base to answer this question. Please make sure data has been ingested and embedded."

/-- One entry of the returned source list. -/
structure RagSource where
  content : Str
  similarity : ℚ
  type : Str
  source : Source
deriving DecidableEq

/-- The value returned by `RAGQuery.query`. -/
structure RagResult where
  answer : Str
  sources : List RagSource
deriving DecidableEq

/-- `RAGQuery.query(question, source?, topK)`: retrieve, and either return
the canned answer with no sources (empty retrieval) or invoke the external
generator (`generate context question`) on the formatted context. -/
def ragQuery (dist : ChunkRow → ℚ) (generate : Str → Str → Str)
    (question : Str) (src : Option Source) (topK : Nat)
    (chunks : List ChunkRow) : RagResult :=
  let searchResults := searchSimilar dist topK src chunks
  if searchResults.isEmpty then
    { answer := cannedAnswer, sources := [] }
  else
    { answer := generate (formatContext searchResults) question
      sources := searchResults.map (fun p =>
        { content := p.1.content.take 200 ++ str "..."
          similarity := p.2
          type := p.1.chunkType
          source := p.1.source }) }

/-! ### Concrete instances used by witnesses and counterexamples -/

/-- The chat body of the cleaning scenario. -/
def payloadC9 : Payload :=
  { Payload.empty with
    content := some (str "check <@123> this out: https://x.co ```print(1)```") }

/-- A Discord raw record whose body cleans to a residual shorter than the
minimum length (it is rejected). -/
def rawRej : RawRecord :=
  { id := 0
    source := .Discord
    data := { Payload.empty with content := some (str "hi") }
    processed := false
    lastProcessedAt := none
    deletedAt := none
    createdAt := 0 }

/-- A Discord raw record whose body cleans successfully. -/
def rawAcc : RawRecord :=
  { id := 1
    source := .Discord
    data := { Payload.empty with content := some (str "hello there world") }
    processed := false
    lastProcessedAt := none
    deletedAt := none
    createdAt := 1 }

/-- Store with one rejected-content record. -/
def dbRej : DB := { data := [rawRej], cleaned := [] }

/-- Store with one rejected-content and one accepted-content record. -/
def dbMix : DB := { data := [rawRej, rawAcc], cleaned := [] }

/-- The `i`-th of 51 eligible, cleanable GitHub raw records. -/
def rawBulk (i : Nat) : RawRecord :=
  { id := i
    source := .Github
    data := { Payload.empty with
              FILENAME := some (str "a.txt")
              CONTENT := some (str "hello pipeline text") }
    processed := false
    lastProcessedAt := none
    deletedAt := none
    createdAt := i }

/-- Store with 51 eligible raw records (one more than `BATCH_SIZE`). -/
def dbBulk : DB := { data := (List.range 51).map rawBulk, cleaned := [] }

/-- An already-embedded chunk row. -/
def chunkEmb : ChunkRow :=
  { id := 1, createdAt := 0, content := str "c1", chunkType := str "text_block"
    contextMetadata := str "m1", source := .Github
    embedding := some [(1 : ℚ), 2], embeddedAt := some 5
    username := none, filename := some (str "f"), timestampISO := none }

/-- A not-yet-embedded chunk row. -/
def chunkNew : ChunkRow :=
  { id := 2, createdAt := 1, content := str "c2", chunkType := str "text_block"
    contextMetadata := str "m2", source := .Github
    embedding := none, embeddedAt := none
    username := none, filename := some (str "f"), timestampISO := none }

/-- A chunk store with one embedded and one pending chunk. -/
def chunkStoreW : List ChunkRow := [chunkEmb, chunkNew]

/-- A stand-in embedding provider. -/
def embedFnW : Str → List ℚ := fun _ => [3]

/-- A stand-in distance (the pgvector operator against a fixed query). -/
def distW : ChunkRow → ℚ := fun c => (c.id : ℚ) / 7

/-- A stand-in external text generator. -/
def genW : Str → Str → Str := fun _ _ => str "GENERATED"

/-- A markdown section whose content is longer than the 200-character
context-metadata preview. -/
def secLong : MdSection := ⟨str "T", List.replicate 300 'a'⟩

/-- The single chunk produced for `secLong`. -/
def mdChLong : ChunkData := mdSectionChunk (str "f.md") 0 secLong

/-- A markdown body with a preamble before its only heading. -/
def mdBodyW : Str := str "preamble\n# A\nbody text here"

/-- Four embedded chunks sharing a store with one pending chunk, used to
exercise retrieval ordering. -/
def chunkR (i : Nat) : ChunkRow :=
  { id := i, createdAt := i, content := str "c" ++ natStr i
    chunkType := str "text_block", contextMetadata := str "m" ++ natStr i
    source := .Github, embedding := some [(i : ℚ)], embeddedAt := some 1
    username := none, filename := some (str "f"), timestampISO := none }

/-- Retrieval witness store. -/
def chunkStoreR : List ChunkRow := [chunkR 3, chunkR 1, chunkNew, chunkR 2]

/-! ### Properties and measures named by the development -/

/-- The tagging discipline the code chunker actually maintains: every chunk
is a function block or a generic code block, and it is a function block
exactly when a declaration-name field (possibly the empty name) was
recorded for it. -/
def TagOk (ch : ChunkData) : Prop :=
  (ch.chunkType = str "code_function" ∨ ch.chunkType = str "code_block") ∧
  (ch.chunkType = str "code_function" ↔ ch.functionName.isSome = true)

/-- The context string stores only a 200-character preview of the body plus
an ellipsis (all repository-file chunk kinds). -/
def CtxTrunc (ch : ChunkData) : Prop :=
  ∃ p, ch.contextMetadata = p ++ ch.content.take 200 ++ str "..."

/-- The heading matches of one scan are in order: each starts at or after
the given position, has positive length, and the remaining matches start at
or after its end. -/
def MatchChain : Nat → List (Nat × Nat × Str) → Prop
  | _, [] => True
  | p, (s, l, _) :: rest => p ≤ s ∧ 1 ≤ l ∧ MatchChain (s + l) rest

/-- The position just after the first heading match (0 when there is
none). -/
def endOfFirst : List (Nat × Nat × Str) → Nat
  | [] => 0
  | (s, l, _) :: _ => s + l

/-! ## Theorems -/

/-! ### Shared helper lemmas -/

theorem mem_of_selectUnembedded {limit : Option Nat} {chunks : List ChunkRow}
    {s : ChunkRow} (hs : s ∈ selectUnembedded limit chunks) :
    s ∈ chunks ∧ s.embeddedAt = none := by
  have hsort : s ∈ List.insertionSort (fun a b : ChunkRow => a.createdAt ≤ b.createdAt)
      (chunks.filter (fun c => c.embeddedAt.isNone)) := by
    unfold selectUnembedded at hs
    cases limit with
    | none => exact hs
    | some n => exact List.mem_of_mem_take hs
  have hmem := (List.perm_insertionSort
    (fun a b : ChunkRow => a.createdAt ≤ b.createdAt) _).mem_iff.mp hsort
  rcases List.mem_filter.mp hmem with ⟨h1, h2⟩
  exact ⟨h1, Option.isNone_iff_eq_none.mp h2⟩

theorem embed_pass_mem {embedFn : Str → List ℚ} {limit : Option Nat} {nowT : Nat}
    {chunks : List ChunkRow} {c : ChunkRow}
    (hids : (chunks.map (fun x => x.id)).Nodup)
    (hc : c ∈ chunks) (he : c.embeddedAt.isSome) :
    c ∈ embedUnprocessedChunks embedFn limit nowT chunks := by
  have hfind : (selectUnembedded limit chunks).find? (fun s => s.id = c.id) = none := by
    cases hf : (selectUnembedded limit chunks).find? (fun s => s.id = c.id) with
    | none => rfl
    | some s =>
      have hps0 := List.find?_some hf
      have hps : s.id = c.id := of_decide_eq_true hps0
      obtain ⟨hschunks, hsnone⟩ := mem_of_selectUnembedded (List.mem_of_find?_eq_some hf)
      have hsc : s = c := List.inj_on_of_nodup_map hids hschunks hc hps
      rw [hsc] at hsnone
      rw [hsnone] at he
      simp at he
  simp only [embedUnprocessedChunks]
  refine List.mem_map.mpr ⟨c, hc, ?_⟩
  simp [hfind]

theorem embed_pass_ids (embedFn : Str → List ℚ) (limit : Option Nat) (nowT : Nat)
    (chunks : List ChunkRow) :
    (embedUnprocessedChunks embedFn limit nowT chunks).map (fun x => x.id) =
      chunks.map (fun x => x.id) := by
  unfold embedUnprocessedChunks
  rw [List.map_map]
  apply List.map_congr_left
  intro x _
  rcases hfind : (selectUnembedded limit chunks).find? (fun s => s.id = x.id) with _ | s <;>
    simp [hfind]

/-! ### C4: an embedded chunk is never touched again -/

/-- C4: the Embedding Writer selects only chunks with `embeddedAt = null`
and writes vector and `embeddedAt` together, so any chunk that is already
embedded is left untouched (its row, vector included, survives unchanged)
by any number of further passes. -/
theorem embedder_never_touches_embedded (embedFn : Str → List ℚ)
    (limit : Option Nat) (nowT : Nat) (chunks : List ChunkRow) (c : ChunkRow)
    (hids : (chunks.map (fun x => x.id)).Nodup)
    (hc : c ∈ chunks) (he : c.embeddedAt.isSome) :
    ∀ n : Nat, c ∈ (embedUnprocessedChunks embedFn limit nowT)^[n] chunks := by
  have main : ∀ n : Nat,
      c ∈ (embedUnprocessedChunks embedFn limit nowT)^[n] chunks ∧
      ((embedUnprocessedChunks embedFn limit nowT)^[n] chunks).map (fun x => x.id) =
        chunks.map (fun x => x.id) := by
    intro n
    induction n with
    | zero => exact ⟨hc, rfl⟩
    | succ m ih =>
      rw [Function.iterate_succ_apply']
      refine ⟨embed_pass_mem ?_ ih.1 he, ?_⟩
      · rw [ih.2]
        exact hids
      · rw [embed_pass_ids, ih.2]
  exact fun n => (main n).1

/-- C4 witness: a concrete embedded chunk survives two further passes. -/
theorem embedder_never_touches_embedded_witness :
    (chunkStoreW.map (fun x => x.id)).Nodup ∧ chunkEmb ∈ chunkStoreW ∧
      chunkEmb.embeddedAt.isSome = true ∧
      chunkEmb ∈ (embedUnprocessedChunks embedFnW none 9)^[2] chunkStoreW :=
  ⟨by decide, by decide, by decide,
    embedder_never_touches_embedded embedFnW none 9 chunkStoreW chunkEmb
      (by decide) (by decide) (by decide) 2⟩

/-! ### C5: retrieval cardinality, ordering and similarity conversion -/

/-- C5: retrieval returns exactly `min topK (number of eligible chunks)`
results, in non-decreasing cosine-distance order, each scored `1 - d/2`. -/
theorem searchSimilar_spec (dist : ChunkRow → ℚ) (topK : Nat) (src : Option Source)
    (chunks : List ChunkRow) :
    (searchSimilar dist topK src chunks).length =
      min topK (eligibleChunks src chunks).length ∧
    List.Pairwise (fun a b : ChunkRow × ℚ => dist a.1 ≤ dist b.1)
      (searchSimilar dist topK src chunks) ∧
    ∀ p ∈ searchSimilar dist topK src chunks, p.2 = 1 - dist p.1 / 2 := by
  have htot : IsTotal ChunkRow (fun a b => dist a ≤ dist b) :=
    ⟨fun a b => le_total (dist a) (dist b)⟩
  have htrans : IsTrans ChunkRow (fun a b => dist a ≤ dist b) :=
    ⟨fun _ _ _ h1 h2 => le_trans h1 h2⟩
  have hsorted : List.Sorted (fun a b => dist a ≤ dist b)
      (List.insertionSort (fun a b => dist a ≤ dist b) (eligibleChunks src chunks)) :=
    @List.sorted_insertionSort _ _ _ htot htrans _
  refine ⟨?_, ?_, ?_⟩
  · simp [searchSimilar, List.length_take, List.length_insertionSort]
  · unfold searchSimilar
    rw [List.pairwise_map]
    exact hsorted.take
  · intro p hp
    unfold searchSimilar at hp
    obtain ⟨c, _, rfl⟩ := List.mem_map.mp hp
    rfl

/-- C5 witness: a store with three eligible chunks queried with `topK = 2`. -/
theorem searchSimilar_spec_witness :
    (searchSimilar distW 2 none chunkStoreR).length =
      min 2 (eligibleChunks none chunkStoreR).length ∧
    List.Pairwise (fun a b : ChunkRow × ℚ => distW a.1 ≤ distW b.1)
      (searchSimilar distW 2 none chunkStoreR) ∧
    ∀ p ∈ searchSimilar distW 2 none chunkStoreR, p.2 = 1 - distW p.1 / 2 :=
  searchSimilar_spec distW 2 none chunkStoreR

/-! ### C6: empty retrieval short-circuits the generator -/

/-- C6: when no chunk is eligible (in particular when a source filter
matches nothing), the answer operation returns the canned no-information
answer with an empty source list, for *every* generator — the generator is
not consulted. -/
theorem ragQuery_no_eligible (dist : ChunkRow → ℚ) (generate : Str → Str → Str)
    (question : Str) (src : Option Source) (topK : Nat) (chunks : List ChunkRow)
    (h : eligibleChunks src chunks = []) :
    ragQuery dist generate question src topK chunks =
      { answer := cannedAnswer, sources := [] } := by
  simp [ragQuery, searchSimilar, h, List.insertionSort]

/-- C6 witness: a store whose only chunk is from GitHub, filtered to
Discord. -/
theorem ragQuery_no_eligible_witness :
    eligibleChunks (some Source.Discord) [chunkEmb] = [] ∧
    ragQuery distW genW (str "q") (some Source.Discord) 5 [chunkEmb] =
      { answer := cannedAnswer, sources := [] } :=
  ⟨by decide,
    ragQuery_no_eligible distW genW (str "q") (some Source.Discord) 5 [chunkEmb]
      (by decide)⟩

/-! ### C2: the per-tick batch bound is not enforced for cleaning -/

/-- C2 (failing-input evaluation): with 51 eligible raw records,
`autoClean` cleans all 51 in a single tick although `BATCH_SIZE` is 50 —
the probe query is limited, but the pass itself is invoked without a
limit. -/
theorem autoClean_exceeds_batch :
    BATCH_SIZE = 50 ∧ (autoClean 0 (str "T") dbBulk).2 = 51 :=
  ⟨rfl, by decide⟩

/-! ### C7: tagging of chunks closed by the code chunker -/

theorem tagOk_boundary (filename language cc name : Str) (k : Nat) :
    TagOk (codeBoundaryChunk filename language cc name k) := by
  constructor
  · exact Or.inl rfl
  · simp [codeBoundaryChunk]

theorem tagOk_size (filename language cc : Str) (k : Nat) :
    TagOk (codeSizeChunk filename language cc k) := by
  constructor
  · exact Or.inr rfl
  · rw [show (codeSizeChunk filename language cc k).chunkType = str "code_block" from rfl]
    simp [codeSizeChunk]
    decide

theorem tagOk_final (filename language cc name : Str) (k : Nat) :
    TagOk (codeFinalChunk filename language cc name k) := by
  by_cases hn : name.isEmpty
  · constructor
    · exact Or.inr (by simp [codeFinalChunk, hn])
    · simp [codeFinalChunk, hn]
      decide
  · constructor
    · exact Or.inl (by simp [codeFinalChunk, hn])
    · simp [codeFinalChunk, hn]

theorem codeLoop_tag (filename language : Str) (lines : List Str) :
    ∀ cur name k, ∀ ch ∈ codeLoop filename language lines cur name k, TagOk ch := by
  induction lines with
  | nil =>
    intro cur name k ch hch
    by_cases hc : cur.isEmpty
    · simp [codeLoop, hc] at hch
    · simp [codeLoop, hc] at hch
      exact hch ▸ tagOk_final filename language (joinNL cur) name k
  | cons line rest ih =>
    intro cur name k ch hch
    have hone : ¬(800 < estimateTokens (joinNL [line]) ∧ 10 < ([line] : List Str).length) := by
      rintro ⟨-, h10⟩
      simp at h10
    rcases hfd : findDecl line with _ | m
    · simp only [codeLoop, hfd] at hch
      split_ifs at hch with hsz
      · simp only [List.nil_append, List.mem_cons] at hch
        rcases hch with rfl | h
        · exact tagOk_size filename language _ _
        · exact ih _ _ _ ch h
      · simp only [List.nil_append] at hch
        exact ih _ _ _ ch hch
    · rcases cur with _ | ⟨c0, cur'⟩
      · simp only [codeLoop, hfd] at hch
        rw [if_neg hone] at hch
        simp only [List.nil_append] at hch
        exact ih _ _ _ ch hch
      · simp only [codeLoop, hfd] at hch
        rw [if_neg hone] at hch
        simp only [List.singleton_append, List.mem_cons] at hch
        rcases hch with rfl | h
        · exact tagOk_boundary filename language _ _ _
        · exact ih _ _ _ ch h

/-- C7 counterexample: in `chunkCodeFile "x\nconst y = 1"`, the chunk closed
at the `const` declaration boundary captured **no** declaration name
(`functionName` is the empty string), yet it is tagged `code_function` — the
claim that a boundary-closed chunk is tagged a function block *exactly when*
a name was captured, and a generic block otherwise, is false. -/
theorem chunkCodeFile_boundary_tags_uncaptured :
    (chunkCodeFile (str "x\nconst y = 1") (str "f.ts") (str "ts")).head? =
      some (codeBoundaryChunk (str "f.ts") (str "ts") (str "x") [] 0) ∧
    (codeBoundaryChunk (str "f.ts") (str "ts") (str "x") [] 0).chunkType =
      str "code_function" ∧
    (codeBoundaryChunk (str "f.ts") (str "ts") (str "x") [] 0).functionName =
      some [] := by
  refine ⟨by decide, rfl, rfl⟩

/-- C7 (amended): every chunk emitted by the code chunker is tagged either
`code_function` or `code_block`, and it is tagged `code_function` exactly
when a `functionName` field was recorded — at a declaration boundary that
field is always recorded (it may be the empty string when no name had been
captured), while only the final trailing chunk is tagged by whether the
captured name is non-empty. -/
theorem chunkCodeFile_tagging (content filename language : Str) :
    ∀ ch ∈ chunkCodeFile content filename language,
      (ch.chunkType = str "code_function" ∨ ch.chunkType = str "code_block") ∧
      (ch.chunkType = str "code_function" ↔ ch.functionName.isSome = true) :=
  fun ch hch => codeLoop_tag filename language (splitOnC '\n' content) [] [] 0 ch hch

/-- C7 witness: the tagging discipline at a concrete two-chunk input. -/
theorem chunkCodeFile_tagging_witness :
    (codeBoundaryChunk (str "f.ts") (str "ts") (str "x") [] 0 ∈
        chunkCodeFile (str "x\nconst y = 1") (str "f.ts") (str "ts")) ∧
    ((codeBoundaryChunk (str "f.ts") (str "ts") (str "x") [] 0).chunkType =
          str "code_function" ∨
        (codeBoundaryChunk (str "f.ts") (str "ts") (str "x") [] 0).chunkType =
          str "code_block") ∧
    ((codeBoundaryChunk (str "f.ts") (str "ts") (str "x") [] 0).chunkType =
          str "code_function" ↔
        (codeBoundaryChunk (str "f.ts") (str "ts") (str "x") [] 0).functionName.isSome = true) :=
  ⟨by decide,
    chunkCodeFile_tagging (str "x\nconst y = 1") (str "f.ts") (str "ts") _ (by decide)⟩

/-! ### C9: the chat-cleaning scenario and the rejection rule -/

/-- C9: cleaning the scenario body replaces the mention, the URL and the
fenced code fragment by their placeholders and extracts one URL and one code
fragment; and in general a chat record is rejected exactly when the residual
text is shorter than 3 characters or is a bare placeholder. -/
theorem cleanDiscord_scenario_and_reject :
    (∃ r, cleanDiscordData payloadC9 (str "1970-01-01T00:00:00.000Z") = some r ∧
        r.content = str "check @user this out: [URL] [CODE_BLOCK]" ∧
        r.urls.length = 1 ∧ r.codeBlocks.length = 1) ∧
    ∀ (p : Payload) (now : Str),
      cleanDiscordData p now = none ↔
        ((discordResidual p.content).length < 3 ∨
          discordResidual p.content = str "[CODE_BLOCK]" ∨
          discordResidual p.content = str "[URL]") := by
  constructor
  · decide
  · intro p now
    by_cases hcond : ((discordResidual p.content).length < 3 ∨
        discordResidual p.content = str "[CODE_BLOCK]" ∨
        discordResidual p.content = str "[URL]")
    · simp [cleanDiscordData, hcond]
    · simp [cleanDiscordData, hcond]

/-! ### C8: chunk indices are a contiguous 0-based sequence -/

theorem mapIdx_chunkIndex {α : Type} (l : List α) (f : Nat → α → ChunkData) (base : Nat)
    (h : ∀ i a, (f i a).chunkIndex = base + i) :
    (l.mapIdx f).map (fun c => c.chunkIndex) = List.range' base l.length := by
  apply List.ext_getElem?
  intro n
  rw [List.getElem?_map, List.getElem?_mapIdx]
  by_cases hn : n < l.length
  · rw [List.getElem?_range' _ _ hn, List.getElem?_eq_getElem hn]
    simp [h]
  · rw [List.getElem?_eq_none (le_of_not_lt hn), List.getElem?_eq_none]
    · rfl
    · rw [List.length_range']
      omega

theorem discordChunks_indices (rec : DiscordRec) :
    (discordChunksFor rec).map (fun c => c.chunkIndex) =
      List.range (discordChunksFor rec).length := by
  have h := mapIdx_chunkIndex rec.codeBlocks (discordCodeChunk rec) 1
    (fun i a => by simp [discordCodeChunk, Nat.add_comm])
  unfold discordChunksFor
  rw [List.map_cons, h]
  have hmain : (discordMainChunk rec).chunkIndex = 0 := rfl
  rw [hmain]
  simp [List.range_eq_range', List.range'_succ]

theorem codeLoop_indices (filename language : Str) (lines : List Str) :
    ∀ cur name k,
      (codeLoop filename language lines cur name k).map (fun c => c.chunkIndex) =
        List.range' k (codeLoop filename language lines cur name k).length := by
  induction lines with
  | nil =>
    intro cur name k
    by_cases hc : cur.isEmpty <;>
      simp [codeLoop, hc, codeFinalChunk, List.range'_succ]
  | cons line rest ih =>
    intro cur name k
    have hone : ¬(800 < estimateTokens (joinNL [line]) ∧ 10 < ([line] : List Str).length) := by
      rintro ⟨-, h10⟩
      simp at h10
    rcases hfd : findDecl line with _ | m
    · simp only [codeLoop, hfd]
      split_ifs with hsz
      · simp [ih, codeSizeChunk, List.range'_succ]
      · simp [ih]
    · rcases cur with _ | ⟨c0, cur'⟩
      · simp only [codeLoop, hfd]
        rw [if_neg hone]
        simp [ih]
      · simp only [codeLoop, hfd]
        rw [if_neg hone]
        simp [ih, codeBoundaryChunk, List.range'_succ]

theorem mdParaLoop_indices (filename : Str) (paras : List Str) :
    ∀ cur k,
      (mdParaLoop filename paras cur k).map (fun c => c.chunkIndex) =
        List.range' k (mdParaLoop filename paras cur k).length := by
  induction paras with
  | nil =>
    intro cur k
    by_cases hc : cur.isEmpty <;> simp [mdParaLoop, hc, mdParaChunk, List.range'_succ]
  | cons p rest ih =>
    intro cur k
    simp only [mdParaLoop]
    split_ifs with hsz
    · simp [ih, mdParaChunk, List.range'_succ]
    · simp [ih]

/-- C8: on every chunking path — chat message plus code fragments, code
file, markdown sections, markdown paragraph accumulation, and the generic
text path — the emitted chunk indices are exactly `0, 1, …, n-1`. -/
theorem chunkIndex_contiguous :
    (∀ rec : DiscordRec,
        (discordChunksFor rec).map (fun c => c.chunkIndex) =
          List.range (discordChunksFor rec).length) ∧
    (∀ content filename language : Str,
        (chunkCodeFile content filename language).map (fun c => c.chunkIndex) =
          List.range (chunkCodeFile content filename language).length) ∧
    (∀ (content : Str) (sections : List MdSection) (filename : Str),
        (chunkMarkdownFile content sections filename).map (fun c => c.chunkIndex) =
          List.range (chunkMarkdownFile content sections filename).length) ∧
    (∀ filename content : Str,
        (chunkTextRecord filename content).map (fun c => c.chunkIndex) =
          List.range (chunkTextRecord filename content).length) := by
  refine ⟨discordChunks_indices, ?_, ?_, ?_⟩
  · intro content filename language
    rw [List.range_eq_range']
    exact codeLoop_indices filename language (splitOnC '\n' content) [] [] 0
  · intro content sections filename
    rcases sections with _ | ⟨s0, srest⟩
    · rw [List.range_eq_range']
      exact mdParaLoop_indices filename (paragraphsOf content) [] 0
    · show ((s0 :: srest).mapIdx (mdSectionChunk filename)).map (fun c => c.chunkIndex) = _
      rw [mapIdx_chunkIndex (s0 :: srest) (mdSectionChunk filename) 0
        (fun i a => by simp [mdSectionChunk]), List.range_eq_range']
      simp [chunkMarkdownFile, List.length_mapIdx]
  · intro filename content
    unfold chunkTextRecord
    rw [mapIdx_chunkIndex _ _ 0 (fun i a => by simp), List.range_eq_range',
      List.length_mapIdx]

/-! ### C3: what the stored context string actually contains -/

theorem ctxTrunc_boundary (filename language cc name : Str) (k : Nat) :
    CtxTrunc (codeBoundaryChunk filename language cc name k) :=
  ⟨str "Function " ++ sq ++ name ++ sq ++ str " from " ++ filename ++
      str " (" ++ language ++ str "): ",
    by simp [codeBoundaryChunk, List.append_assoc]⟩

theorem ctxTrunc_size (filename language cc : Str) (k : Nat) :
    CtxTrunc (codeSizeChunk filename language cc k) :=
  ⟨str "Code section from " ++ filename ++ str " (" ++ language ++ str "): ",
    by simp [codeSizeChunk, List.append_assoc]⟩

theorem ctxTrunc_final (filename language cc name : Str) (k : Nat) :
    CtxTrunc (codeFinalChunk filename language cc name k) := by
  by_cases hn : name.isEmpty
  · exact ⟨str "Code section" ++ (str " from " ++ filename ++ str " (" ++
      language ++ str "): "), by simp [codeFinalChunk, hn, List.append_assoc]⟩
  · exact ⟨(str "Function " ++ sq ++ name ++ sq) ++ (str " from " ++ filename ++
      str " (" ++ language ++ str "): "),
      by simp [codeFinalChunk, hn, List.append_assoc]⟩

theorem ctxTrunc_mdSection (filename : Str) (idx : Nat) (sec : MdSection) :
    CtxTrunc (mdSectionChunk filename idx sec) :=
  ⟨str "Markdown section \"" ++ sec.header ++ str "\" from " ++ filename ++ str ": ",
    by simp [mdSectionChunk, List.append_assoc]⟩

theorem ctxTrunc_mdPara (filename cc : Str) (k : Nat) :
    CtxTrunc (mdParaChunk filename cc k) :=
  ⟨str "Text from " ++ filename ++ str ": ",
    by simp [mdParaChunk, List.append_assoc]⟩

theorem codeLoop_ctx (filename language : Str) (lines : List Str) :
    ∀ cur name k, ∀ ch ∈ codeLoop filename language lines cur name k, CtxTrunc ch := by
  induction lines with
  | nil =>
    intro cur name k ch hch
    by_cases hc : cur.isEmpty
    · simp [codeLoop, hc] at hch
    · simp [codeLoop, hc] at hch
      exact hch ▸ ctxTrunc_final filename language (joinNL cur) name k
  | cons line rest ih =>
    intro cur name k ch hch
    have hone : ¬(800 < estimateTokens (joinNL [line]) ∧ 10 < ([line] : List Str).length) := by
      rintro ⟨-, h10⟩
      simp at h10
    rcases hfd : findDecl line with _ | m
    · simp only [codeLoop, hfd] at hch
      split_ifs at hch with hsz
      · simp only [List.nil_append, List.mem_cons] at hch
        rcases hch with rfl | h
        · exact ctxTrunc_size filename language _ _
        · exact ih _ _ _ ch h
      · simp only [List.nil_append] at hch
        exact ih _ _ _ ch hch
    · rcases cur with _ | ⟨c0, cur'⟩
      · simp only [codeLoop, hfd] at hch
        rw [if_neg hone] at hch
        simp only [List.nil_append] at hch
        exact ih _ _ _ ch hch
      · simp only [codeLoop, hfd] at hch
        rw [if_neg hone] at hch
        simp only [List.singleton_append, List.mem_cons] at hch
        rcases hch with rfl | h
        · exact ctxTrunc_boundary filename language _ _ _
        · exact ih _ _ _ ch h

theorem mdParaLoop_ctx (filename : Str) (paras : List Str) :
    ∀ cur k, ∀ ch ∈ mdParaLoop filename paras cur k, CtxTrunc ch := by
  induction paras with
  | nil =>
    intro cur k ch hch
    by_cases hc : cur.isEmpty
    · simp [mdParaLoop, hc] at hch
    · simp [mdParaLoop, hc] at hch
      exact hch ▸ ctxTrunc_mdPara filename (joinPara cur) k
  | cons p rest ih =>
    intro cur k ch hch
    simp only [mdParaLoop] at hch
    split_ifs at hch with hsz
    · simp only [List.mem_cons] at hch
      rcases hch with rfl | h
      · exact ctxTrunc_mdPara filename _ _
      · exact ih _ _ ch h
    · exact ih _ _ ch hch

set_option maxRecDepth 40000 in
/-- C3 counterexample: the single chunk built from a 300-character markdown
section stores a context string of 235 characters — shorter than the body —
so it cannot be any prefix followed by the full body; the stored context
string is truncated, not just the logged preview. -/
theorem mdSection_ctx_not_full_body :
    (chunkMarkdownFile [] [secLong] (str "f.md")).head? = some mdChLong ∧
    mdChLong.contextMetadata.length = 235 ∧
    mdChLong.content.length = 305 ∧
    ∀ p : Str, mdChLong.contextMetadata ≠ p ++ mdChLong.content := by
  refine ⟨by decide, by decide, by decide, ?_⟩
  intro p h
  have hlen := congrArg List.length h
  rw [List.length_append] at hlen
  have h1 : mdChLong.contextMetadata.length = 235 := by decide
  have h2 : mdChLong.content.length = 305 := by decide
  omega

/-- C3 (amended): Discord chunks (message and code fragment) store a
provenance prefix followed by the *full* body; repository-file chunks
(code, markdown section, markdown paragraph, generic text) store a
provenance prefix followed by only the first 200 characters of the body and
an ellipsis. -/
theorem contextMetadata_shape :
    (∀ rec : DiscordRec, ∀ ch ∈ discordChunksFor rec,
        ∃ p, ch.contextMetadata = p ++ ch.content) ∧
    (∀ content filename language : Str,
        ∀ ch ∈ chunkCodeFile content filename language, CtxTrunc ch) ∧
    (∀ (content : Str) (sections : List MdSection) (filename : Str),
        ∀ ch ∈ chunkMarkdownFile content sections filename, CtxTrunc ch) ∧
    (∀ filename content : Str, ∀ ch ∈ chunkTextRecord filename content, CtxTrunc ch) := by
  refine ⟨?_, ?_, ?_, ?_⟩
  · intro rec ch hch
    rcases List.mem_cons.mp hch with rfl | hmem
    · exact ⟨str "Discord message from @" ++ rec.username ++ str " on " ++
        isoDate rec.timestampISO ++ str " in channel " ++ rec.channelId ++ str ": ",
        by simp [discordMainChunk, List.append_assoc]⟩
    · obtain ⟨i, hi, rfl⟩ := List.mem_mapIdx.mp hmem
      exact ⟨str "Code block from @" ++ rec.username ++ sq ++ str "s message on " ++
        isoDate rec.timestampISO ++ str ": ",
        by simp [discordCodeChunk, List.append_assoc]⟩
  · intro content filename language ch hch
    exact codeLoop_ctx filename language (splitOnC '\n' content) [] [] 0 ch hch
  · intro content sections filename ch hch
    rcases sections with _ | ⟨s0, srest⟩
    · exact mdParaLoop_ctx filename (paragraphsOf content) [] 0 ch hch
    · obtain ⟨i, hi, rfl⟩ := List.mem_mapIdx.mp hch
      exact ctxTrunc_mdSection filename i _
  · intro filename content ch hch
    obtain ⟨i, hi, rfl⟩ := List.mem_mapIdx.mp hch
    exact ⟨str "Text from " ++ filename ++ str ": ", by simp [List.append_assoc]⟩

/-- C3 witness: the shapes at concrete chunks — a Discord store and the
first code chunk of a concrete file. -/
theorem contextMetadata_shape_witness :
    (codeBoundaryChunk (str "f.ts") (str "ts") (str "x") [] 0 ∈
        chunkCodeFile (str "x\nconst y = 1") (str "f.ts") (str "ts")) ∧
    CtxTrunc (codeBoundaryChunk (str "f.ts") (str "ts") (str "x") [] 0) :=
  ⟨by decide,
    contextMetadata_shape.2.1 (str "x\nconst y = 1") (str "f.ts") (str "ts") _ (by decide)⟩

/-! ### C1: which records the cleaning pass marks processed -/

theorem mem_selectRaw {limit : Option Nat} {db : DB} {s : RawRecord}
    (hs : s ∈ selectRaw limit db) : s ∈ db.data ∧ eligibleRaw s = true := by
  have hsort : s ∈ List.insertionSort (fun a b : RawRecord => a.createdAt ≤ b.createdAt)
      (db.data.filter eligibleRaw) := by
    unfold selectRaw at hs
    cases limit with
    | none => exact hs
    | some n => exact List.mem_of_mem_take hs
  have hmem := (List.perm_insertionSort
    (fun a b : RawRecord => a.createdAt ≤ b.createdAt) _).mem_iff.mp hsort
  exact List.mem_filter.mp hmem

theorem cleanStep_data (nowT : Nat) (nowISO : Str) (acc : DB × Nat) (r : RawRecord) :
    (cleanStep nowT nowISO acc r).1.data =
      if (cleanRaw nowISO r).isSome then
        acc.1.data.map (fun x => if x.id = r.id then markProcessed nowT x else x)
      else acc.1.data := by
  unfold cleanStep
  rcases h : cleanRaw nowISO r with _ | res <;> simp [h]

theorem mark_idem (nowT : Nat) (x : RawRecord) :
    markProcessed nowT (markProcessed nowT x) = markProcessed nowT x := rfl

theorem cleanFold_data (nowT : Nat) (nowISO : Str) (sel : List RawRecord) :
    ∀ acc : DB × Nat,
      (sel.foldl (cleanStep nowT nowISO) acc).1.data =
        acc.1.data.map (fun x =>
          if sel.any (fun s => decide (s.id = x.id) && (cleanRaw nowISO s).isSome) then
            markProcessed nowT x
          else x) := by
  induction sel with
  | nil =>
    intro acc
    simp
  | cons s rest ih =>
    intro acc
    rw [List.foldl_cons, ih, cleanStep_data]
    by_cases hs : (cleanRaw nowISO s).isSome
    · rw [if_pos hs, List.map_map]
      apply List.map_congr_left
      intro x _
      by_cases hx : x.id = s.id
      · simp [Function.comp, hx, hs, markProcessed]
      · have hne : ¬(s.id = x.id) := fun hh => hx hh.symm
        simp [Function.comp, hx, hne, hs]
    · rw [if_neg hs]
      apply List.map_congr_left
      intro x _
      have : (decide (s.id = x.id) && (cleanRaw nowISO s).isSome) = false := by
        simp [Bool.and_eq_false_iff]
        intro _
        simpa using hs
      simp [List.any_cons, this]

theorem processUncleaned_data_eq (limit : Option Nat) (nowT : Nat) (nowISO : Str)
    (db : DB) :
    (processUncleanedData limit nowT nowISO db).1.data =
      db.data.map (fun x =>
        if (selectRaw limit db).any
            (fun s => decide (s.id = x.id) && (cleanRaw nowISO s).isSome) then
          markProcessed nowT x
        else x) :=
  cleanFold_data nowT nowISO (selectRaw limit db) (db, 0)

set_option maxRecDepth 4000 in
/-- C1 counterexample: a selected Discord record whose content is rejected
(`"hi"` cleans to a residual shorter than the minimum length) is **not**
marked processed — its `processed` flag stays `false`, `lastProcessedAt`
stays null, and the record is selected again by the very next pass. -/
theorem cleaner_leaves_rejected_unprocessed :
    ((processUncleanedData none 1 (str "T") dbRej).1.data.map
        (fun r => (r.processed, r.lastProcessedAt))) = [(false, none)] ∧
    (processUncleanedData none 1 (str "T") dbRej).2 = 0 ∧
    selectRaw none (processUncleanedData none 1 (str "T") dbRej).1 = [rawRej] := by
  refine ⟨by decide, by decide, by decide⟩

/-- C1 (amended): one cleaning pass flips `processed`/`lastProcessedAt`
*only* for selected records whose cleaning produced a Cleaned Record; a
record whose content is rejected is left entirely unchanged — still
unprocessed — and therefore remains eligible for selection by later
passes. -/
theorem cleaner_marks_only_accepted (db : DB) (limit : Option Nat) (nowT : Nat)
    (nowISO : Str) (hids : (db.data.map (fun r => r.id)).Nodup) :
    (∀ r ∈ db.data, cleanRaw nowISO r = none →
        r ∈ (processUncleanedData limit nowT nowISO db).1.data) ∧
    (∀ r ∈ selectRaw limit db, (cleanRaw nowISO r).isSome →
        markProcessed nowT r ∈ (processUncleanedData limit nowT nowISO db).1.data) := by
  constructor
  · intro r hr hnone
    rw [processUncleaned_data_eq]
    have hcond : (selectRaw limit db).any
        (fun s => decide (s.id = r.id) && (cleanRaw nowISO s).isSome) = false := by
      rw [Bool.eq_false_iff]
      intro hany
      obtain ⟨s, hsel, hpred⟩ := List.any_eq_true.mp hany
      have hpred' : s.id = r.id ∧ (cleanRaw nowISO s).isSome = true := by
        simpa using hpred
      obtain ⟨hid, hsome⟩ := hpred'
      have hsdata := (mem_selectRaw hsel).1
      have hsr : s = r := List.inj_on_of_nodup_map hids hsdata hr hid
      rw [hsr, hnone] at hsome
      simp at hsome
    have himg : (fun x => if (selectRaw limit db).any
        (fun s => decide (s.id = x.id) && (cleanRaw nowISO s).isSome) then
          markProcessed nowT x else x) r = r := by
      simp [hcond]
    exact himg ▸ List.mem_map_of_mem _ hr
  · intro r hr hsome
    rw [processUncleaned_data_eq]
    have hcond : (selectRaw limit db).any
        (fun s => decide (s.id = r.id) && (cleanRaw nowISO s).isSome) = true :=
      List.any_eq_true.mpr ⟨r, hr, by simp [hsome]⟩
    have himg : (fun x => if (selectRaw limit db).any
        (fun s => decide (s.id = x.id) && (cleanRaw nowISO s).isSome) then
          markProcessed nowT x else x) r = markProcessed nowT r := by
      simp [hcond]
    exact himg ▸ List.mem_map_of_mem _ (mem_selectRaw hr).1

set_option maxRecDepth 4000 in
/-- C1 witness: in a store with one rejected-content and one
accepted-content record, the rejected one survives the pass unprocessed and
the accepted one is marked processed. -/
theorem cleaner_marks_only_accepted_witness :
    (dbMix.data.map (fun r => r.id)).Nodup ∧
    cleanRaw (str "T") rawRej = none ∧
    rawRej ∈ (processUncleanedData none 5 (str "T") dbMix).1.data ∧
    (cleanRaw (str "T") rawAcc).isSome = true ∧
    markProcessed 5 rawAcc ∈ (processUncleanedData none 5 (str "T") dbMix).1.data :=
  ⟨by decide, by decide,
    (cleaner_marks_only_accepted dbMix none 5 (str "T") (by decide)).1 rawRej
      (by decide) (by decide),
    by decide,
    (cleaner_marks_only_accepted dbMix none 5 (str "T") (by decide)).2 rawAcc
      (by decide) (by decide)⟩

/-! ### C10: markdown sections never contain pre-heading text -/

theorem headingBT_pos {rest : Str} {r len : Nat} {t : Str} :
    ∀ {j : Nat}, headingBT rest r j = some (len, t) → r + 1 ≤ len := by
  intro j
  induction j with
  | zero => intro h; simp [headingBT] at h
  | succ i ih =>
    intro h
    unfold headingBT at h
    rcases hh : (rest.drop (i + 1)).head? with _ | c
    · rw [hh] at h
      exact ih h
    · rw [hh] at h
      dsimp only at h
      by_cases hc : c ≠ '\n'
      · rw [if_pos hc] at h
        have h1 : r + (i + 1) + ((rest.drop (i + 1)).takeWhile (· ≠ '\n')).length = len :=
          congrArg Prod.fst (Option.some.inj h)
        omega
      · rw [if_neg hc] at h
        exact ih h

theorem headingAt_pos {s : Str} {len : Nat} {t : Str}
    (h : headingAt s = some (len, t)) : 1 ≤ len := by
  unfold headingAt at h
  set r := (s.takeWhile (· = '#')).length with hr
  by_cases h16 : 1 ≤ r ∧ r ≤ 6
  · rw [if_pos h16] at h
    set w := ((s.drop r).takeWhile isWs).length with hw
    by_cases hw0 : w = 0
    · rw [if_pos hw0] at h
      exact absurd h (by simp)
    · rw [if_neg hw0] at h
      rcases ha : (s.drop r).drop w with _ | ⟨c, cs⟩
      · rw [ha] at h
        have := headingBT_pos h
        omega
      · rw [ha] at h
        have h1 : r + w + ((c :: cs).takeWhile (· ≠ '\n')).length = len :=
          congrArg Prod.fst (Option.some.inj h)
        omega
  · rw [if_neg h16] at h
    exact absurd h (by simp)

theorem matchChain_mono {p q : Nat} {ms : List (Nat × Nat × Str)}
    (hqp : q ≤ p) (h : MatchChain p ms) : MatchChain q ms := by
  cases ms with
  | nil => trivial
  | cons m rest =>
    obtain ⟨h1, h2, h3⟩ := h
    exact ⟨le_trans hqp h1, h2, h3⟩

theorem scanHeadingsAux_chain :
    ∀ (fuel : Nat) (s : Str) (pos : Nat) (atLS : Bool),
      MatchChain pos (scanHeadingsAux fuel s pos atLS) := by
  intro fuel
  induction fuel with
  | zero => intro s pos atLS; trivial
  | succ f ih =>
    intro s pos atLS
    cases s with
    | nil => trivial
    | cons c rest =>
      simp only [scanHeadingsAux]
      by_cases hls : atLS = true
      · rw [if_pos hls]
        rcases hh : headingAt (c :: rest) with _ | ⟨len, text⟩
        · exact matchChain_mono (Nat.le_succ pos) (ih rest (pos + 1) (c = '\n'))
        · exact ⟨le_refl pos, headingAt_pos hh, ih ((c :: rest).drop len) (pos + len) false⟩
      · rw [if_neg hls]
        exact matchChain_mono (Nat.le_succ pos) (ih rest (pos + 1) (c = '\n'))

theorem scanHeadings_chain (content : Str) :
    MatchChain 0 (scanHeadings content) :=
  scanHeadingsAux_chain content.length content 0 true

theorem trimL_within (s : Str) : trimL s <:+: s := by
  unfold trimL
  have h1 : s.dropWhile isWs <:+ s := List.dropWhile_suffix isWs
  have h2 : (s.dropWhile isWs).reverse.dropWhile isWs <:+ (s.dropWhile isWs).reverse :=
    List.dropWhile_suffix isWs
  have h3 : ((s.dropWhile isWs).reverse.dropWhile isWs).reverse <+: s.dropWhile isWs := by
    rw [← List.reverse_suffix]
    simpa using h2
  exact h3.isInfix.trans h1.isInfix

theorem drop_suffix_of_le {e m : Nat} (h : e ≤ m) (l : Str) :
    l.drop m <:+ l.drop e := by
  have hm : l.drop m = (l.drop e).drop (m - e) := by
    rw [List.drop_drop]
    congr 1
    omega
  rw [hm]
  exact List.drop_suffix _ _

theorem sectionsFrom_within (content : Str) :
    ∀ (ms : List (Nat × Nat × Str)) (e : Nat), MatchChain e ms →
      ∀ sec ∈ sectionsFrom content ms, sec.content <:+: content.drop (endOfFirst ms) := by
  intro ms
  induction ms with
  | nil =>
    intro e _ sec hsec
    simp [sectionsFrom] at hsec
  | cons m rest ih =>
    rcases m with ⟨s0, l0, t0⟩
    intro e hchain sec hsec
    obtain ⟨-, -, hrest⟩ := hchain
    rcases List.mem_cons.mp hsec with rfl | hmem
    · show trimL _ <:+: content.drop (s0 + l0)
      exact (trimL_within _).trans ((List.take_prefix _ _).isInfix)
    · have hih := ih (s0 + l0) hrest sec hmem
      refine hih.trans ?_
      cases rest with
      | nil => simp [sectionsFrom] at hmem
      | cons m1 rest1 =>
        rcases m1 with ⟨s1, l1, t1⟩
        obtain ⟨h01, -, -⟩ := hrest
        exact (drop_suffix_of_le (by omega : s0 + l0 ≤ s1 + l1) content).isInfix

theorem mapIdx_map_eq {α β γ : Type} (l : List α) (f : Nat → α → β) (g : β → γ)
    (h0 : α → γ) (hp : ∀ i a, g (f i a) = h0 a) :
    (l.mapIdx f).map g = l.map h0 := by
  apply List.ext_getElem?
  intro n
  rw [List.getElem?_map, List.getElem?_mapIdx, List.getElem?_map]
  cases hn : l[n]? with
  | none => rfl
  | some a => simp [hp]

theorem jsOr_some_self (s : Str) : jsOr (some s) [] = s := by
  cases s <;> simp [jsOr]

/-- C10: in a markdown repository file with at least one heading, every
section recorded on the Cleaned Record is drawn from the text at or after
the end of the first heading match — the text preceding the first heading
is in no section — and the section-path chunker emits exactly one chunk per
section, each carrying its section's heading. -/
theorem markdown_sections_after_first_heading (filename content : Str)
    (hfn : ¬filename.isEmpty) (hmd : extensionOfL filename = str "md")
    (hh : scanHeadings content ≠ []) :
    (∀ g, cleanGithubData
        { Payload.empty with FILENAME := some filename, CONTENT := some content } =
          some g →
        g.sections = some (parseMarkdownSections content)) ∧
    (∀ sec ∈ parseMarkdownSections content,
        sec.content <:+: content.drop (endOfFirst (scanHeadings content))) ∧
    ((chunkMarkdownFile content (parseMarkdownSections content) filename).length =
        (parseMarkdownSections content).length ∧
      (chunkMarkdownFile content (parseMarkdownSections content) filename).map
          (fun c => c.headerPath) =
        (parseMarkdownSections content).map (fun s => some s.header)) := by
  have hfil : jsOr (some filename) (str "unknown") = filename := by
    simp [jsOr, hfn]
  have hcont : jsOr (some content) [] = content := jsOr_some_self content
  have hnonempty : parseMarkdownSections content ≠ [] := by
    unfold parseMarkdownSections
    rcases hms : scanHeadings content with _ | ⟨⟨s0, l0, t0⟩, rest⟩
    · exact absurd hms hh
    · simp [sectionsFrom]
  refine ⟨?_, ?_, ?_⟩
  · intro g hg
    simp [cleanGithubData, hfil, hcont, hmd] at hg
    rw [← hg.2]
  · intro sec hsec
    exact sectionsFrom_within content (scanHeadings content) 0
      (scanHeadings_chain content) sec hsec
  · rcases hps : parseMarkdownSections content with _ | ⟨p0, prest⟩
    · exact absurd hps hnonempty
    · constructor
      · simp [chunkMarkdownFile, List.length_mapIdx]
      · show ((p0 :: prest).mapIdx (mdSectionChunk filename)).map (fun c => c.headerPath) = _
        exact mapIdx_map_eq (p0 :: prest) (mdSectionChunk filename) (fun c => c.headerPath)
          (fun s => some s.header) (fun i a => rfl)

set_option maxRecDepth 4000 in
/-- C10 witness: a markdown body with a preamble before its single heading;
the recorded section excludes the preamble. -/
theorem markdown_sections_after_first_heading_witness :
    (¬(str "x.md").isEmpty) ∧ extensionOfL (str "x.md") = str "md" ∧
    scanHeadings mdBodyW ≠ [] ∧
    ∀ sec ∈ parseMarkdownSections mdBodyW,
      sec.content <:+: mdBodyW.drop (endOfFirst (scanHeadings mdBodyW)) :=
  ⟨by decide, by decide, by decide,
    (markdown_sections_after_first_heading (str "x.md") mdBodyW (by decide) (by decide)
      (by decide)).2.1⟩

end Ingest
